import Mathlib

/-
Shallow embedding of `ai_agent.py`, a knowledge-based Minesweeper inference
engine, together with proofs about its documented behaviour.

Modelling conventions:
* a board cell `(row, col)` is a pair of integers;
* Python `set` becomes `Finset`, Python `int` becomes `ℤ`;
* `Sentence.known_mines` returns `False` or a set in Python; here it returns
  `Option (Finset Cell)` (`none` plays the role of the falsy `False`, and the
  falsy empty set is folded over, which marks nothing, exactly as skipping);
* in-place mutation of sentences becomes mapping a pure update over the
  knowledge list (Python mutates each listed object; the list itself only
  ever grows by `append`, so positions are stable);
* iteration over a Python set, whose order is unspecified, is modelled by a
  canonical sorted enumeration where the result is order-independent
  (marking a batch of cells), and by an explicit enumeration parameter where
  the chosen element is observable (`make_safe_move`);
* `random.choice` is modelled by an arbitrary index parameter.
-/

abbrev Cell := ℤ × ℤ

/-- Python class `Sentence`: a set of board cells and a count of how many of
them are mines. Equality (used for deduplication) is joint on both fields. -/
structure Sentence where
  cells : Finset Cell
  count : ℤ

/-- Python `Sentence.__eq__`: joint equality on the cell-set and the count
(a kernel-reducible instance, avoiding the derived handler's `Eq.rec`). -/
instance : DecidableEq Sentence := fun s t =>
  decidable_of_iff (s.cells = t.cells ∧ s.count = t.count)
    (by cases s; cases t; simp [Sentence.mk.injEq])

/-- Python `Sentence.known_mines`: returns `self.cells` when
`len(self.cells) == self.count and self.count != 0`, otherwise `False`. -/
def Sentence.known_mines (s : Sentence) : Option (Finset Cell) :=
  if (s.cells.card : ℤ) = s.count ∧ s.count ≠ 0 then some s.cells else none

/-- Python `Sentence.known_safes`: returns `self.cells` when
`self.count == 0`, otherwise `False`. -/
def Sentence.known_safes (s : Sentence) : Option (Finset Cell) :=
  if s.count = 0 then some s.cells else none

/-- Python `Sentence.mark_mine`: if the cell is present, remove it and
decrement the count (unconditionally, with no lower bound). -/
def Sentence.mark_mine (s : Sentence) (cell : Cell) : Sentence :=
  if cell ∈ s.cells then ⟨s.cells.erase cell, s.count - 1⟩ else s

/-- Python `Sentence.mark_safe`: if the cell is present, remove it; the
count is unchanged. -/
def Sentence.mark_safe (s : Sentence) (cell : Cell) : Sentence :=
  if cell ∈ s.cells then ⟨s.cells.erase cell, s.count⟩ else s

/-- Python class `MinesweeperAI`: the engine state. -/
structure MinesweeperAI where
  height : ℤ
  width : ℤ
  moves_made : Finset Cell
  mines : Finset Cell
  safes : Finset Cell
  knowledge : List Sentence

instance : DecidableEq MinesweeperAI := fun x y =>
  decidable_of_iff (x.height = y.height ∧ x.width = y.width ∧
      x.moves_made = y.moves_made ∧ x.mines = y.mines ∧
      x.safes = y.safes ∧ x.knowledge = y.knowledge)
    (by cases x; cases y; simp [MinesweeperAI.mk.injEq])

/-- Python `MinesweeperAI.__init__`: empty sets, empty knowledge list. -/
def MinesweeperAI.init (height width : ℤ) : MinesweeperAI :=
  ⟨height, width, ∅, ∅, ∅, []⟩

/-- Python `MinesweeperAI.mark_mine`: add the cell to `mines` and update
every sentence in the knowledge list in place. -/
def MinesweeperAI.mark_mine (ai : MinesweeperAI) (cell : Cell) : MinesweeperAI :=
  { ai with mines := insert cell ai.mines,
            knowledge := ai.knowledge.map (fun s => s.mark_mine cell) }

/-- Python `MinesweeperAI.mark_safe`: add the cell to `safes` and update
every sentence in the knowledge list in place. -/
def MinesweeperAI.mark_safe (ai : MinesweeperAI) (cell : Cell) : MinesweeperAI :=
  { ai with safes := insert cell ai.safes,
            knowledge := ai.knowledge.map (fun s => s.mark_safe cell) }

/-- Engine-level mine marking of two cells commutes (marking a batch of
cells is independent of the iteration order): erasures commute inside each
sentence and the count drops once per removed member. -/
instance : RightCommutative (fun (acc : MinesweeperAI) (c : Cell) => acc.mark_mine c) := by
  constructor
  intro ai a b
  have hcomm : ∀ s : Sentence,
      (s.mark_mine a).mark_mine b = (s.mark_mine b).mark_mine a := by
    intro s
    by_cases hab : a = b
    · subst hab; rfl
    · unfold Sentence.mark_mine
      by_cases ha : a ∈ s.cells <;> by_cases hb : b ∈ s.cells <;>
        simp [ha, hb, Finset.mem_erase, hab, Ne.symm hab,
          Finset.erase_right_comm]
  unfold MinesweeperAI.mark_mine
  simp [Finset.Insert.comm, hcomm]

/-- Engine-level safe marking of two cells commutes. -/
instance : RightCommutative (fun (acc : MinesweeperAI) (c : Cell) => acc.mark_safe c) := by
  constructor
  intro ai a b
  have hcomm : ∀ s : Sentence,
      (s.mark_safe a).mark_safe b = (s.mark_safe b).mark_safe a := by
    intro s
    by_cases hab : a = b
    · subst hab; rfl
    · unfold Sentence.mark_safe
      by_cases ha : a ∈ s.cells <;> by_cases hb : b ∈ s.cells <;>
        simp [ha, hb, Finset.mem_erase, hab, Ne.symm hab,
          Finset.erase_right_comm]
  unfold MinesweeperAI.mark_safe
  simp [Finset.Insert.comm, hcomm]

/-- Python loop `for additional_cell in sentence.known_mines().copy():
self.mark_mine(additional_cell)`; the iteration is over a snapshot of the
set in an unspecified order, and by the commutativity instance above the
combined effect is independent of that order. -/
def markAllMines (ai : MinesweeperAI) (C : Finset Cell) : MinesweeperAI :=
  Multiset.foldl (fun acc c => acc.mark_mine c) ai C.val

/-- Python loop `for additional_cell in sentence.known_safes().copy():
self.mark_safe(additional_cell)`. -/
def markAllSafes (ai : MinesweeperAI) (C : Finset Cell) : MinesweeperAI :=
  Multiset.foldl (fun acc c => acc.mark_safe c) ai C.val

/-- The nine positions visited by the Python double loop
`for i in range(cell[0] - 1, cell[0] + 2): for j in range(cell[1] - 1,
cell[1] + 2)`, flattened in iteration order. -/
def neighborCandidates (cell : Cell) : List Cell :=
  [(cell.1 - 1, cell.2 - 1), (cell.1 - 1, cell.2), (cell.1 - 1, cell.2 + 1),
   (cell.1, cell.2 - 1), (cell.1, cell.2), (cell.1, cell.2 + 1),
   (cell.1 + 1, cell.2 - 1), (cell.1 + 1, cell.2), (cell.1 + 1, cell.2 + 1)]

/-- Loop body of `MinesweeperAI.neighbors`: skip the cell itself and
out-of-bounds positions; a known mine decrements the count and is dropped;
any other position is added unless it is both known safe and already moved
on (Python `if (i, j) not in self.safes or (i, j) not in self.moves_made`). -/
def neighborStep (ai : MinesweeperAI) (cell : Cell) (acc : Finset Cell × ℤ)
    (p : Cell) : Finset Cell × ℤ :=
  if p = cell then acc
  else if 0 ≤ p.1 ∧ p.1 < ai.height ∧ 0 ≤ p.2 ∧ p.2 < ai.width then
    if p ∈ ai.mines then (acc.1, acc.2 - 1)
    else if p ∉ ai.safes ∨ p ∉ ai.moves_made then (insert p acc.1, acc.2)
    else acc
  else acc

/-- Python `MinesweeperAI.neighbors`: build the sentence of undetermined
neighboring cells of `cell` with the adjusted count. -/
def MinesweeperAI.neighbors (ai : MinesweeperAI) (cell : Cell) (count : ℤ) :
    Sentence :=
  let r := (neighborCandidates cell).foldl (neighborStep ai cell) (∅, count)
  ⟨r.1, r.2⟩

/-- One iteration of the Python loop `for sentence in self.knowledge:` in
`add_knowledge`. The list is indexed; the sentence object is mutated in
place by the markings, so the `known_safes` test reads the updated entry.
A falsy `False` or empty-set result marks nothing, which coincides with
folding over the empty set. -/
def extractMines (ai : MinesweeperAI) (s : Sentence) : MinesweeperAI :=
  match s.known_mines with
  | some C => markAllMines ai C
  | none => ai

/-- After the mine marking, the Python variable `sentence` refers to the
mutated object, so the `known_safes` check re-reads position `k`. -/
def extractSafes (ai : MinesweeperAI) (k : ℕ) : MinesweeperAI :=
  match ai.knowledge.get? k with
  | none => ai
  | some s1 =>
    match s1.known_safes with
    | some C => markAllSafes ai C
    | none => ai

def extractStep (ai : MinesweeperAI) (k : ℕ) : MinesweeperAI :=
  match ai.knowledge.get? k with
  | none => ai
  | some s => extractSafes (extractMines ai s) k

/-- The full fact-extraction pass of `add_knowledge`: the list length is
constant during the loop (markings only rewrite entries), so the Python
iterator visits exactly the positions `0, ..., length - 1`. -/
def extractPass (ai : MinesweeperAI) : MinesweeperAI :=
  (List.range ai.knowledge.length).foldl extractStep ai

/-- Inner loop body of the subset-derivation pass: with `i` the outer
sentence (`superset = i.cells`, `count2 = i.count`) and `j` the inner one,
skip equal cell-sets, and for `j.cells ⊆ i.cells` append the derived
sentence. -/
def deriveStep (i : Sentence) (acc : MinesweeperAI) (j : Sentence) :
    MinesweeperAI :=
  if j.cells = i.cells then acc
  else if j.cells ⊆ i.cells then
    { acc with knowledge :=
        acc.knowledge ++ [⟨i.cells \ j.cells, i.count - j.count⟩] }
  else acc

/-- Inner loop `for j in self.knowledge.copy():` — the copy is taken when
the inner loop starts, so it includes sentences appended by earlier outer
iterations. -/
def deriveFrom (i : Sentence) (ai : MinesweeperAI) : MinesweeperAI :=
  ai.knowledge.foldl (deriveStep i) ai

/-- Outer loop `for i in self.knowledge.copy():` — the copy is the list as
it stands when the pass starts. -/
def subsetPass (ai : MinesweeperAI) : MinesweeperAI :=
  ai.knowledge.foldl (fun acc i => deriveFrom i acc) ai

/-- Python `self.knowledge = list(set(self.knowledge))`: collapse the list
so no two entries are equal in content; the order of the Python result is
unspecified, and `List.dedup` is one order of the same set of sentences. -/
def dedupKnowledge (ai : MinesweeperAI) : MinesweeperAI :=
  { ai with knowledge := ai.knowledge.dedup }

/-- Python `MinesweeperAI.add_knowledge`: record the move, mark the cell
safe if it is not yet, append the neighbor sentence, run the extraction
pass, run the subset-derivation pass, deduplicate. -/
def MinesweeperAI.add_knowledge (ai : MinesweeperAI) (cell : Cell)
    (count : ℤ) : MinesweeperAI :=
  let ai1 := { ai with moves_made := insert cell ai.moves_made }
  let ai2 := if cell ∈ ai1.safes then ai1 else ai1.mark_safe cell
  let ai3 := { ai2 with knowledge := ai2.knowledge ++ [ai2.neighbors cell count] }
  dedupKnowledge (subsetPass (extractPass ai3))

/-- A whole game prefix: `add_knowledge` once per reported observation. -/
def MinesweeperAI.run (ai : MinesweeperAI) (obs : List (Cell × ℤ)) :
    MinesweeperAI :=
  obs.foldl (fun acc o => acc.add_knowledge o.1 o.2) ai

/-- Python `MinesweeperAI.make_safe_move`: scan `self.safes` (a set, in an
unspecified order given here by `enum`) for a cell not yet played. The
source only reads `safes`, `mines` and `moves_made`; the returned state is
the input state, reflecting that nothing is assigned. -/
def MinesweeperAI.make_safe_move (ai : MinesweeperAI) (enum : List Cell) :
    Option Cell × MinesweeperAI :=
  (enum.find? (fun c => decide (c ∉ ai.moves_made)), ai)

/-- The list `moves` built by `MinesweeperAI.make_random_move`: all board
cells in row-major order that are neither played nor known mines. -/
def MinesweeperAI.availableMoves (ai : MinesweeperAI) : List Cell :=
  (List.range ai.height.toNat).flatMap (fun i =>
    (List.range ai.width.toNat).filterMap (fun j =>
      if (Int.ofNat i, Int.ofNat j) ∉ ai.moves_made ∧
          (Int.ofNat i, Int.ofNat j) ∉ ai.mines
      then some (Int.ofNat i, Int.ofNat j) else none))

/-- Python `MinesweeperAI.make_random_move`: `random.choice(moves)` when the
list is nonempty, else `None`; the random draw is modelled by an arbitrary
index `k`. -/
def MinesweeperAI.make_random_move (ai : MinesweeperAI) (k : ℕ) : Option Cell :=
  let moves := ai.availableMoves
  if h : moves.length ≠ 0 then
    some (moves.get ⟨k % moves.length, Nat.mod_lt _ (Nat.pos_of_ne_zero h)⟩)
  else none

/-- Specification-side description of the in-bounds neighborhood of a cell:
the candidate positions other than the cell itself that lie on the board. -/
def boardNeighbors (height width : ℤ) (cell : Cell) : Finset Cell :=
  ((neighborCandidates cell).filter (fun p =>
    decide (p ≠ cell ∧ 0 ≤ p.1 ∧ p.1 < height ∧ 0 ≤ p.2 ∧ p.2 < width))).toFinset

/-- Specification-side board membership predicate for a cell. -/
def onBoard (ai : MinesweeperAI) (c : Cell) : Prop :=
  0 ≤ c.1 ∧ c.1 < ai.height ∧ 0 ≤ c.2 ∧ c.2 < ai.width

/-- The inclusion condition of `neighbors`: an in-bounds position other than
the observed cell, not a known mine, and not both safe and already played. -/
def keepCell (ai : MinesweeperAI) (cell p : Cell) : Prop :=
  p ≠ cell ∧ 0 ≤ p.1 ∧ p.1 < ai.height ∧ 0 ≤ p.2 ∧ p.2 < ai.width ∧
  p ∉ ai.mines ∧ (p ∉ ai.safes ∨ p ∉ ai.moves_made)

/-- The decrement condition of `neighbors`: an in-bounds position other than
the observed cell that is a known mine. -/
def mineNeighbor (ai : MinesweeperAI) (cell p : Cell) : Prop :=
  p ≠ cell ∧ 0 ≤ p.1 ∧ p.1 < ai.height ∧ 0 ≤ p.2 ∧ p.2 < ai.width ∧
  p ∈ ai.mines

instance (ai : MinesweeperAI) (cell p : Cell) : Decidable (keepCell ai cell p) :=
  inferInstanceAs (Decidable (p ≠ cell ∧ 0 ≤ p.1 ∧ p.1 < ai.height ∧
    0 ≤ p.2 ∧ p.2 < ai.width ∧ p ∉ ai.mines ∧
    (p ∉ ai.safes ∨ p ∉ ai.moves_made)))

instance (ai : MinesweeperAI) (cell p : Cell) : Decidable (mineNeighbor ai cell p) :=
  inferInstanceAs (Decidable (p ≠ cell ∧ 0 ≤ p.1 ∧ p.1 < ai.height ∧
    0 ≤ p.2 ∧ p.2 < ai.width ∧ p ∈ ai.mines))

instance (ai : MinesweeperAI) (c : Cell) : Decidable (onBoard ai c) :=
  inferInstanceAs (Decidable (0 ≤ c.1 ∧ c.1 < ai.height ∧ 0 ≤ c.2 ∧ c.2 < ai.width))

/-- A small concrete engine used by the C8 witness: (0,0) is known safe and
not yet played. -/
def aiC8 : MinesweeperAI := ⟨2, 2, ∅, ∅, {((0:ℤ),(0:ℤ))}, []⟩

/-- A concrete engine on a 3 by 3 board holding constraints
A = {(0,0),(0,1),(0,2)} = 2 and B = {(0,0),(0,1)} = 1, the configuration of
the subset-derivation test of the specification. -/
def aiC2 : MinesweeperAI :=
  ⟨3, 3, ∅, ∅, ∅,
   [⟨{((0:ℤ),(0:ℤ)), ((0:ℤ),(1:ℤ)), ((0:ℤ),(2:ℤ))}, 2⟩,
    ⟨{((0:ℤ),(0:ℤ)), ((0:ℤ),(1:ℤ))}, 1⟩]⟩

/-- The three state-changing public operations of the engine; the two move
suggestions read the state without changing it (their embeddings do not
produce a state). -/
inductive EngineOp where
  | markMineOp (c : Cell) : EngineOp
  | markSafeOp (c : Cell) : EngineOp
  | observeOp (c : Cell) (n : ℤ) : EngineOp

def applyOp (ai : MinesweeperAI) : EngineOp → MinesweeperAI
  | .markMineOp c => ai.mark_mine c
  | .markSafeOp c => ai.mark_safe c
  | .observeOp c n => ai.add_knowledge c n

def applyOps (ai : MinesweeperAI) (ops : List EngineOp) : MinesweeperAI :=
  ops.foldl applyOp ai

/-- No cell of any retained sentence is in the engine's `mines` set. -/
def MinesDisjoint (ai : MinesweeperAI) : Prop :=
  ∀ s ∈ ai.knowledge, ∀ c ∈ s.cells, c ∉ ai.mines

/-- A sentence is true of a mine set `M` when its count is exactly the
number of its cells lying in `M`. -/
def IsTrue (M : Finset Cell) (s : Sentence) : Prop :=
  s.count = ((s.cells ∩ M).card : ℤ)

/-- Engine state soundness with respect to the actual mine set `M`: every
believed mine is a real mine, no believed safe cell is a real mine, and
every retained sentence is true of `M`. -/
def Sound (M : Finset Cell) (ai : MinesweeperAI) : Prop :=
  ai.mines ⊆ M ∧ (∀ c ∈ ai.safes, c ∉ M) ∧ ∀ s ∈ ai.knowledge, IsTrue M s

/-- The board dimensions are never written by any engine operation. -/
def SameDims (h w : ℤ) (ai : MinesweeperAI) : Prop :=
  ai.height = h ∧ ai.width = w

/-- A truthful oracle report for the mine set `M`: the observed cell is not
a mine and the reported count is the exact number of mines among its
in-bounds neighbors. -/
def TruthfulObs (height width : ℤ) (M : Finset Cell) (o : Cell × ℤ) : Prop :=
  o.1 ∉ M ∧ o.2 = ((boardNeighbors height width o.1 ∩ M).card : ℤ)

instance (height width : ℤ) (M : Finset Cell) (o : Cell × ℤ) :
    Decidable (TruthfulObs height width M o) :=
  inferInstanceAs (Decidable (o.1 ∉ M ∧
    o.2 = ((boardNeighbors height width o.1 ∩ M).card : ℤ)))

/-- Consistency of a public engine operation with an actual mine set `M`:
cells marked as mines are real mines, cells marked safe are not mines, and
observations are truthful oracle reports. -/
def ConsistentOp (height width : ℤ) (M : Finset Cell) : EngineOp → Prop
  | .markMineOp c => c ∈ M
  | .markSafeOp c => c ∉ M
  | .observeOp c n =>
      c ∉ M ∧ n = ((boardNeighbors height width c ∩ M).card : ℤ)

instance (height width : ℤ) (M : Finset Cell) :
    (op : EngineOp) → Decidable (ConsistentOp height width M op)
  | .markMineOp c => inferInstanceAs (Decidable (c ∈ M))
  | .markSafeOp c => inferInstanceAs (Decidable (c ∉ M))
  | .observeOp c n => inferInstanceAs (Decidable (c ∉ M ∧
      n = ((boardNeighbors height width c ∩ M).card : ℤ)))

section Infrastructure

/-- Folding a step that preserves a predicate preserves it. -/
lemma listFoldl_preserves {α β : Type} (P : β → Prop) (f : β → α → β)
    (h : ∀ b a, P b → P (f b a)) :
    ∀ (L : List α) (b : β), P b → P (L.foldl f b) := by
  intro L
  induction L with
  | nil => intro b hb; exact hb
  | cons a L ih => intro b hb; exact ih _ (h _ _ hb)

/-- Folding a step that preserves a predicate, given that every folded
element satisfies a side condition, preserves the predicate. -/
lemma listFoldl_preserves_mem {α β : Type} (P : β → Prop) (Q : α → Prop)
    (f : β → α → β) (h : ∀ b a, Q a → P b → P (f b a)) :
    ∀ (L : List α), (∀ a ∈ L, Q a) → ∀ b, P b → P (L.foldl f b) := by
  intro L
  induction L with
  | nil => intro _ b hb; exact hb
  | cons a L ih =>
    intro hQ b hb
    exact ih (fun x hx => hQ x (List.mem_cons_of_mem a hx)) _
      (h _ _ (hQ a (List.mem_cons_self a L)) hb)

/-- Multiset version of fold preservation. -/
lemma multisetFoldl_preserves {α β : Type} (P : β → Prop) (f : β → α → β)
    [RightCommutative f] (h : ∀ b a, P b → P (f b a)) :
    ∀ (s : Multiset α) (b : β), P b → P (Multiset.foldl f b s) := by
  intro s
  refine Multiset.induction_on s (by simp) ?_
  intro a t ih b hb
  rw [Multiset.foldl_cons]
  exact ih _ (h _ _ hb)

/-- Multiset fold preservation with a side condition on the elements. -/
lemma multisetFoldl_preserves_mem {α β : Type} (P : β → Prop) (Q : α → Prop)
    (f : β → α → β) [RightCommutative f] (h : ∀ b a, Q a → P b → P (f b a)) :
    ∀ (s : Multiset α), (∀ a ∈ s, Q a) → ∀ b, P b → P (Multiset.foldl f b s) := by
  intro s
  refine Multiset.induction_on s (by simp) ?_
  intro a t ih hQ b hb
  rw [Multiset.foldl_cons]
  exact ih (fun x hx => hQ x (Multiset.mem_cons_of_mem hx)) _
    (h _ _ (hQ a (Multiset.mem_cons_self a t)) hb)

@[simp] lemma MinesweeperAI.mark_mine_height (ai : MinesweeperAI) (c : Cell) :
    (ai.mark_mine c).height = ai.height := rfl

@[simp] lemma MinesweeperAI.mark_mine_width (ai : MinesweeperAI) (c : Cell) :
    (ai.mark_mine c).width = ai.width := rfl

@[simp] lemma MinesweeperAI.mark_mine_moves (ai : MinesweeperAI) (c : Cell) :
    (ai.mark_mine c).moves_made = ai.moves_made := rfl

@[simp] lemma MinesweeperAI.mark_mine_mines (ai : MinesweeperAI) (c : Cell) :
    (ai.mark_mine c).mines = insert c ai.mines := rfl

@[simp] lemma MinesweeperAI.mark_mine_safes (ai : MinesweeperAI) (c : Cell) :
    (ai.mark_mine c).safes = ai.safes := rfl

@[simp] lemma MinesweeperAI.mark_mine_knowledge (ai : MinesweeperAI) (c : Cell) :
    (ai.mark_mine c).knowledge = ai.knowledge.map (fun s => s.mark_mine c) := rfl

@[simp] lemma MinesweeperAI.mark_safe_height (ai : MinesweeperAI) (c : Cell) :
    (ai.mark_safe c).height = ai.height := rfl

@[simp] lemma MinesweeperAI.mark_safe_width (ai : MinesweeperAI) (c : Cell) :
    (ai.mark_safe c).width = ai.width := rfl

@[simp] lemma MinesweeperAI.mark_safe_moves (ai : MinesweeperAI) (c : Cell) :
    (ai.mark_safe c).moves_made = ai.moves_made := rfl

@[simp] lemma MinesweeperAI.mark_safe_mines (ai : MinesweeperAI) (c : Cell) :
    (ai.mark_safe c).mines = ai.mines := rfl

@[simp] lemma MinesweeperAI.mark_safe_safes (ai : MinesweeperAI) (c : Cell) :
    (ai.mark_safe c).safes = insert c ai.safes := rfl

@[simp] lemma MinesweeperAI.mark_safe_knowledge (ai : MinesweeperAI) (c : Cell) :
    (ai.mark_safe c).knowledge = ai.knowledge.map (fun s => s.mark_safe c) := rfl

/-- Marking the same mine twice in a sentence is the same as marking once. -/
lemma Sentence.mark_mine_idem (s : Sentence) (c : Cell) :
    (s.mark_mine c).mark_mine c = s.mark_mine c := by
  by_cases h : c ∈ s.cells <;> simp [Sentence.mark_mine, h]

/-- Marking the same safe cell twice in a sentence equals marking once. -/
lemma Sentence.mark_safe_idem (s : Sentence) (c : Cell) :
    (s.mark_safe c).mark_safe c = s.mark_safe c := by
  by_cases h : c ∈ s.cells <;> simp [Sentence.mark_safe, h]

lemma map_mark_mine_idem (c : Cell) : ∀ l : List Sentence,
    (l.map (fun s => s.mark_mine c)).map (fun s => s.mark_mine c) =
      l.map (fun s => s.mark_mine c) := by
  intro l
  induction l with
  | nil => rfl
  | cons s l ih => simp [Sentence.mark_mine_idem, ih]

lemma map_mark_safe_idem (c : Cell) : ∀ l : List Sentence,
    (l.map (fun s => s.mark_safe c)).map (fun s => s.mark_safe c) =
      l.map (fun s => s.mark_safe c) := by
  intro l
  induction l with
  | nil => rfl
  | cons s l ih => simp [Sentence.mark_safe_idem, ih]

end Infrastructure

/-- C9: engine-level marking is idempotent: calling `mark_mine(c)` twice
(resp. `mark_safe(c)` twice) produces the same engine state — the same
mines set, safes set and knowledge-collection content — as calling once. -/
theorem claim9_marking_idempotent (ai : MinesweeperAI) (c : Cell) :
    (ai.mark_mine c).mark_mine c = ai.mark_mine c ∧
    (ai.mark_safe c).mark_safe c = ai.mark_safe c := by
  constructor
  · unfold MinesweeperAI.mark_mine
    simp [Finset.insert_idem]
    intro a _
    exact Sentence.mark_mine_idem a c
  · unfold MinesweeperAI.mark_safe
    simp [Finset.insert_idem]
    intro a _
    exact Sentence.mark_safe_idem a c

/-- C10: for a cell in the sentence, `Sentence.mark_mine` removes it and
decrements the count by exactly one, with no lower bound on the count. -/
theorem claim10_mark_mine_unconditional (s : Sentence) (c : Cell)
    (h : c ∈ s.cells) :
    (s.mark_mine c).cells = s.cells.erase c ∧
    (s.mark_mine c).count = s.count - 1 := by
  simp [Sentence.mark_mine, h]

/-- Witness for C10: marking a mine in a sentence whose count is already 0
drives the count to -1. -/
theorem claim10_witness :
    ((0:ℤ),(0:ℤ)) ∈ (Sentence.mk {((0:ℤ),(0:ℤ))} 0).cells ∧
    ((Sentence.mk {((0:ℤ),(0:ℤ))} 0).mark_mine ((0:ℤ),(0:ℤ))).count = -1 :=
  ⟨by decide, by
    simpa using
      (claim10_mark_mine_unconditional ⟨{((0:ℤ),(0:ℤ))}, 0⟩ ((0:ℤ),(0:ℤ))
        (by decide)).2⟩

/-- C6: `known_mines` returns the cell-set exactly when the count equals the
cardinality and is nonzero; in every other case (count 0 with nonempty
cells, the empty degenerate sentence, or any non-trivial count) it returns
the no-new-fact signal. -/
theorem claim6_known_mines_spec (s : Sentence) :
    (s.known_mines = some s.cells ↔
      ((s.cells.card : ℤ) = s.count ∧ s.count ≠ 0)) ∧
    (s.known_mines = none ↔
      ¬((s.cells.card : ℤ) = s.count ∧ s.count ≠ 0)) := by
  unfold Sentence.known_mines
  split_ifs with h <;> simp [h]

section NeighborSpec

lemma neighborCandidates_nodup (cell : Cell) :
    (neighborCandidates cell).Nodup := by
  rcases cell with ⟨r, c⟩
  simp [neighborCandidates, List.nodup_cons, List.mem_cons, Prod.mk.injEq]
  omega

lemma neighborStep_fold (ai : MinesweeperAI) (cell : Cell) :
    ∀ (L : List Cell) (S : Finset Cell) (n : ℤ),
    L.foldl (neighborStep ai cell) (S, n) =
      (S ∪ (L.filter (fun p => decide (keepCell ai cell p))).toFinset,
       n - ((L.filter (fun p => decide (mineNeighbor ai cell p))).length : ℤ)) := by
  intro L
  induction L with
  | nil => intro S n; simp
  | cons p L ih =>
    intro S n
    rw [List.foldl_cons, List.filter_cons, List.filter_cons]
    by_cases h1 : p = cell
    · have hstep : neighborStep ai cell (S, n) p = (S, n) := by
        simp [neighborStep, h1]
      have hk : ¬ keepCell ai cell p := by simp [keepCell, h1]
      have hm : ¬ mineNeighbor ai cell p := by simp [mineNeighbor, h1]
      rw [hstep, ih]
      simp [hk, hm]
    · by_cases h2 : 0 ≤ p.1 ∧ p.1 < ai.height ∧ 0 ≤ p.2 ∧ p.2 < ai.width
      · by_cases h3 : p ∈ ai.mines
        · have hstep : neighborStep ai cell (S, n) p = (S, n - 1) := by
            simp [neighborStep, h1, h2, h3]
          have hk : ¬ keepCell ai cell p := by simp [keepCell, h1, h3]
          have hm : mineNeighbor ai cell p :=
            ⟨h1, h2.1, h2.2.1, h2.2.2.1, h2.2.2.2, h3⟩
          rw [hstep, ih]
          simp [hk, hm, Prod.ext_iff]
          all_goals omega
        · by_cases h4 : p ∉ ai.safes ∨ p ∉ ai.moves_made
          · have hstep : neighborStep ai cell (S, n) p = (insert p S, n) := by
              simp [neighborStep, h1, h2, h3, h4]
            have hk : keepCell ai cell p :=
              ⟨h1, h2.1, h2.2.1, h2.2.2.1, h2.2.2.2, h3, h4⟩
            have hm : ¬ mineNeighbor ai cell p := by simp [mineNeighbor, h3]
            rw [hstep, ih]
            simp [hk, hm, Prod.ext_iff, Finset.insert_union, Finset.union_insert]
          · have hstep : neighborStep ai cell (S, n) p = (S, n) := by
              simp [neighborStep, h1, h2, h3, h4]
            have hk : ¬ keepCell ai cell p := by
              intro hcon
              exact h4 hcon.2.2.2.2.2.2
            have hm : ¬ mineNeighbor ai cell p := by simp [mineNeighbor, h3]
            rw [hstep, ih]
            simp [hk, hm]
      · have hstep : neighborStep ai cell (S, n) p = (S, n) := by
          simp [neighborStep, h1, h2]
        have hk : ¬ keepCell ai cell p := by
          intro hcon
          exact h2 ⟨hcon.2.1, hcon.2.2.1, hcon.2.2.2.1, hcon.2.2.2.2.1⟩
        have hm : ¬ mineNeighbor ai cell p := by
          intro hcon
          exact h2 ⟨hcon.2.1, hcon.2.2.1, hcon.2.2.2.1, hcon.2.2.2.2.1⟩
        rw [hstep, ih]
        simp [hk, hm]

lemma mem_boardNeighbors (h w : ℤ) (cell p : Cell) :
    p ∈ boardNeighbors h w cell ↔
      p ∈ neighborCandidates cell ∧ p ≠ cell ∧
        0 ≤ p.1 ∧ p.1 < h ∧ 0 ≤ p.2 ∧ p.2 < w := by
  simp [boardNeighbors, List.mem_filter, and_assoc]

/-- The cell-set built by `neighbors` is exactly the in-bounds neighborhood
minus known mines minus fully-resolved (safe and played) cells. -/
lemma neighbors_cells_spec (ai : MinesweeperAI) (cell : Cell) (count : ℤ) :
    (ai.neighbors cell count).cells =
      (boardNeighbors ai.height ai.width cell).filter
        (fun p => p ∉ ai.mines ∧ (p ∉ ai.safes ∨ p ∉ ai.moves_made)) := by
  unfold MinesweeperAI.neighbors
  rw [neighborStep_fold]
  ext x
  simp [Finset.mem_filter, mem_boardNeighbors, List.mem_filter, keepCell]
  tauto

/-- The count built by `neighbors` is the reported count minus one per
already-known mine among the in-bounds neighbors. -/
lemma neighbors_count_spec (ai : MinesweeperAI) (cell : Cell) (count : ℤ) :
    (ai.neighbors cell count).count =
      count - (((boardNeighbors ai.height ai.width cell).filter
        (fun p => p ∈ ai.mines)).card : ℤ) := by
  unfold MinesweeperAI.neighbors
  rw [neighborStep_fold]
  have heq : (boardNeighbors ai.height ai.width cell).filter
      (fun p => p ∈ ai.mines) =
      ((neighborCandidates cell).filter
        (fun p => decide (mineNeighbor ai cell p))).toFinset := by
    ext x
    simp [Finset.mem_filter, mem_boardNeighbors, List.mem_filter, mineNeighbor]
    tauto
  rw [heq, List.toFinset_card_of_nodup
    ((neighborCandidates_nodup cell).filter _)]

end NeighborSpec

/-- C5: neighbor-constraint construction: every in-bounds neighbor already
known to be a mine is excluded and decrements the count by one; every other
in-bounds neighbor is included unless it is both already safe and already
moved on; the result is the sentence of the remaining neighbors with the
adjusted count. -/
theorem claim5_neighbor_construction (ai : MinesweeperAI) (cell : Cell)
    (count : ℤ) :
    (ai.neighbors cell count).cells =
      (boardNeighbors ai.height ai.width cell).filter
        (fun p => p ∉ ai.mines ∧ (p ∉ ai.safes ∨ p ∉ ai.moves_made)) ∧
    (ai.neighbors cell count).count =
      count - (((boardNeighbors ai.height ai.width cell).filter
        (fun p => p ∈ ai.mines)).card : ℤ) :=
  ⟨neighbors_cells_spec ai cell count, neighbors_count_spec ai cell count⟩

section MoveSelection

lemma mem_availableMoves (ai : MinesweeperAI) (c : Cell) :
    c ∈ ai.availableMoves ↔
      onBoard ai c ∧ c ∉ ai.moves_made ∧ c ∉ ai.mines := by
  unfold MinesweeperAI.availableMoves
  constructor
  · intro h
    rcases List.mem_flatMap.1 h with ⟨i, hi, hc⟩
    rcases List.mem_filterMap.1 hc with ⟨j, hj, hcj⟩
    rw [List.mem_range] at hi hj
    split_ifs at hcj with hcond
    · rw [Option.some.injEq] at hcj
      subst hcj
      refine ⟨⟨?_, ?_, ?_, ?_⟩, hcond.1, hcond.2⟩ <;>
        simp only [Int.ofNat_eq_natCast] <;> omega
  · rintro ⟨⟨hc1, hc2, hc3, hc4⟩, hmm, hmn⟩
    have hcell : (Int.ofNat c.1.toNat, Int.ofNat c.2.toNat) = c := by
      show (((c.1.toNat : ℤ)), ((c.2.toNat : ℤ))) = c
      rw [Int.toNat_of_nonneg hc1, Int.toNat_of_nonneg hc3]
    refine List.mem_flatMap.2 ⟨c.1.toNat, List.mem_range.2 (by omega), ?_⟩
    refine List.mem_filterMap.2 ⟨c.2.toNat, List.mem_range.2 (by omega), ?_⟩
    rw [hcell, if_pos ⟨hmm, hmn⟩]

end MoveSelection

/-- C7: `make_random_move` returns only cells of the board that are neither
already played nor known mines, and returns the no-move signal exactly when
every board cell is played or a known mine (rather than raising). -/
theorem claim7_random_move_domain (ai : MinesweeperAI) (k : ℕ) :
    (ai.make_random_move k = none ↔
      ∀ c : Cell, onBoard ai c → c ∈ ai.moves_made ∨ c ∈ ai.mines) ∧
    (∀ c : Cell, ai.make_random_move k = some c →
      onBoard ai c ∧ c ∉ ai.moves_made ∧ c ∉ ai.mines) := by
  constructor
  · constructor
    · intro hnone c hcb
      by_contra hcon
      push_neg at hcon
      have hmem : c ∈ ai.availableMoves :=
        (mem_availableMoves ai c).2 ⟨hcb, hcon.1, hcon.2⟩
      have hlen : ai.availableMoves.length ≠ 0 := by
        intro h0
        rw [List.length_eq_zero] at h0
        rw [h0] at hmem
        exact List.not_mem_nil c hmem
      unfold MinesweeperAI.make_random_move at hnone
      rw [dif_pos hlen] at hnone
      exact Option.some_ne_none _ hnone
    · intro hall
      unfold MinesweeperAI.make_random_move
      rw [dif_neg]
      simp only [ne_eq, not_not, List.length_eq_zero]
      rw [List.eq_nil_iff_forall_not_mem]
      intro c hc
      have := (mem_availableMoves ai c).1 hc
      rcases hall c this.1 with h | h
      · exact this.2.1 h
      · exact this.2.2 h
  · intro c hsome
    unfold MinesweeperAI.make_random_move at hsome
    by_cases h : ai.availableMoves.length ≠ 0
    · rw [dif_pos h] at hsome
      have hget : ai.availableMoves.get
          ⟨k % ai.availableMoves.length,
            Nat.mod_lt _ (Nat.pos_of_ne_zero h)⟩ ∈ ai.availableMoves :=
        List.get_mem _ _ _
      rw [Option.some.injEq] at hsome
      rw [← hsome]
      exact (mem_availableMoves ai _).1 hget
    · rw [dif_neg h] at hsome
      exact absurd hsome (Option.noConfusion)

/-- Witness for C7: on a fresh 2 by 2 board, index 0 picks cell (0,0), which
is on the board, unplayed and not a known mine. -/
theorem claim7_witness :
    (MinesweeperAI.init 2 2).make_random_move 0 = some ((0:ℤ),(0:ℤ)) ∧
    (onBoard (MinesweeperAI.init 2 2) ((0:ℤ),(0:ℤ)) ∧
     ((0:ℤ),(0:ℤ)) ∉ (MinesweeperAI.init 2 2).moves_made ∧
     ((0:ℤ),(0:ℤ)) ∉ (MinesweeperAI.init 2 2).mines) :=
  ⟨by decide,
   (claim7_random_move_domain (MinesweeperAI.init 2 2) 0).2 _ (by decide)⟩

/-- C8: `make_safe_move` returns a cell in `safes` and not in `moves_made`
whenever one exists (for any iteration order of `safes`), returns the
no-move signal exactly when none exists, and does not change the engine
state. -/
theorem claim8_safe_move_spec (ai : MinesweeperAI) (enum : List Cell)
    (henum : enum.toFinset = ai.safes) :
    ((ai.make_safe_move enum).1 = none ↔ ai.safes \ ai.moves_made = ∅) ∧
    (∀ c : Cell, (ai.make_safe_move enum).1 = some c →
      c ∈ ai.safes ∧ c ∉ ai.moves_made) ∧
    (ai.make_safe_move enum).2 = ai := by
  refine ⟨?_, ?_, rfl⟩
  · unfold MinesweeperAI.make_safe_move
    simp only [List.find?_eq_none, decide_eq_true_eq]
    constructor
    · intro hnone
      rw [Finset.eq_empty_iff_forall_not_mem]
      intro x hx
      rw [Finset.mem_sdiff] at hx
      have hxe : x ∈ enum := by
        rw [← List.mem_toFinset, henum]
        exact hx.1
      exact (hnone x hxe) hx.2
    · intro hempty x hxe
      intro hxnot
      have hxs : x ∈ ai.safes := by
        rw [← henum, List.mem_toFinset] at *
        exact hxe
      have : x ∈ ai.safes \ ai.moves_made := Finset.mem_sdiff.2 ⟨hxs, hxnot⟩
      rw [hempty] at this
      exact Finset.not_mem_empty x this
  · intro c hc
    unfold MinesweeperAI.make_safe_move at hc
    simp only at hc
    have h1 : c ∈ enum := List.mem_of_find?_eq_some hc
    have h2 := List.find?_some hc
    rw [decide_eq_true_eq] at h2
    refine ⟨?_, h2⟩
    rw [← henum, List.mem_toFinset]
    exact h1

/-- Witness for C8: an engine knowing (0,0) safe and unplayed; the move
suggested is in `safes`, unplayed, and the state is untouched. -/
theorem claim8_witness :
    (([((0:ℤ),(0:ℤ))] : List Cell).toFinset = aiC8.safes) ∧
    (((aiC8.make_safe_move [((0:ℤ),(0:ℤ))]).1 = none ↔
        aiC8.safes \ aiC8.moves_made = ∅) ∧
      (∀ c : Cell, (aiC8.make_safe_move [((0:ℤ),(0:ℤ))]).1 = some c →
        c ∈ aiC8.safes ∧ c ∉ aiC8.moves_made) ∧
      (aiC8.make_safe_move [((0:ℤ),(0:ℤ))]).2 = aiC8) :=
  ⟨by decide, claim8_safe_move_spec aiC8 [((0:ℤ),(0:ℤ))] (by decide)⟩

/-- Counterexample to C2: with A = {a,b,c} = 2 and B = {a,b} = 1 in the
knowledge base, one `add_knowledge` call does derive `{c} = 1`, but the call
returns without placing c in `mines`: the subset-derivation pass runs after
the fact-extraction pass, so the derived trivial sentence is not extracted
within the same call. -/
theorem claim2_counterexample :
    (Sentence.mk {((0:ℤ),(2:ℤ))} 1 ∈
      (aiC2.add_knowledge ((2:ℤ),(2:ℤ)) 1).knowledge) ∧
    ((0:ℤ),(2:ℤ)) ∉ (aiC2.add_knowledge ((2:ℤ),(2:ℤ)) 1).mines := by decide

/-- C2 (amended): one `add_knowledge` call with A = {a,b,c} = 2 and
B = {a,b} = 1 present derives and retains the sentence {c} = 1, but does not
place c in `mines` before returning; c reaches `mines` only during the
extraction pass of the next `add_knowledge` call. -/
theorem claim2_amended_two_call_extraction :
    (Sentence.mk {((0:ℤ),(2:ℤ))} 1 ∈
      (aiC2.add_knowledge ((2:ℤ),(2:ℤ)) 1).knowledge) ∧
    ((0:ℤ),(2:ℤ)) ∉ (aiC2.add_knowledge ((2:ℤ),(2:ℤ)) 1).mines ∧
    ((0:ℤ),(2:ℤ)) ∈
      ((aiC2.add_knowledge ((2:ℤ),(2:ℤ)) 1).add_knowledge
        ((2:ℤ),(0:ℤ)) 1).mines := by decide

/-- Counterexample to C1: after two observations on a 3 by 3 board, the
retained sentence {(1,1),(1,2),(2,1)} = 1 contains the cell (1,1) even
though (1,1) is in `safes` (it was proved safe by the first observation but
never played, and `neighbors` re-admits any cell that is not both safe and
played). -/
theorem claim1_counterexample :
    (Sentence.mk {((1:ℤ),(1:ℤ)), ((1:ℤ),(2:ℤ)), ((2:ℤ),(1:ℤ))} 1 ∈
      ((MinesweeperAI.init 3 3).run
        [(((0:ℤ),(0:ℤ)), 0), (((2:ℤ),(2:ℤ)), 1)]).knowledge) ∧
    ((1:ℤ),(1:ℤ)) ∈
      (Sentence.mk {((1:ℤ),(1:ℤ)), ((1:ℤ),(2:ℤ)), ((2:ℤ),(1:ℤ))} 1).cells ∧
    ((1:ℤ),(1:ℤ)) ∈
      ((MinesweeperAI.init 3 3).run
        [(((0:ℤ),(0:ℤ)), 0), (((2:ℤ),(2:ℤ)), 1)]).safes := by decide

/-- Counterexample to C3: an observation whose count exceeds the number of
neighbors (possible since nothing validates the reported count) is retained
as a sentence with count 5 over 3 cells, violating count <= |cells|. -/
theorem claim3_counterexample :
    (Sentence.mk {((0:ℤ),(1:ℤ)), ((1:ℤ),(0:ℤ)), ((1:ℤ),(1:ℤ))} 5 ∈
      ((MinesweeperAI.init 2 2).run [(((0:ℤ),(0:ℤ)), 5)]).knowledge) ∧
    ¬((Sentence.mk {((0:ℤ),(1:ℤ)), ((1:ℤ),(0:ℤ)), ((1:ℤ),(1:ℤ))} 5).count ≤
      ((Sentence.mk {((0:ℤ),(1:ℤ)), ((1:ℤ),(0:ℤ)), ((1:ℤ),(1:ℤ))} 5).cells.card : ℤ)) := by
  decide

/-- Counterexample to C4: `mark_mine` and `mark_safe` insert unconditionally,
so marking the same cell first as a mine and then as safe leaves it in both
sets: mines and safes are not disjoint after that operation sequence. -/
theorem claim4_counterexample :
    ((0:ℤ),(0:ℤ)) ∈ (applyOps (MinesweeperAI.init 2 2)
      [.markMineOp ((0:ℤ),(0:ℤ)), .markSafeOp ((0:ℤ),(0:ℤ))]).mines ∧
    ((0:ℤ),(0:ℤ)) ∈ (applyOps (MinesweeperAI.init 2 2)
      [.markMineOp ((0:ℤ),(0:ℤ)), .markSafeOp ((0:ℤ),(0:ℤ))]).safes := by
  decide

section MinesDisjointInvariant

lemma Sentence.mark_mine_cells_subset (s : Sentence) (c : Cell) :
    (s.mark_mine c).cells ⊆ s.cells := by
  unfold Sentence.mark_mine
  split_ifs
  · exact Finset.erase_subset _ _
  · exact subset_rfl

lemma Sentence.not_mem_mark_mine (s : Sentence) (c : Cell) :
    c ∉ (s.mark_mine c).cells := by
  unfold Sentence.mark_mine
  split_ifs with h
  · exact Finset.not_mem_erase _ _
  · exact h

lemma Sentence.mark_safe_cells_subset (s : Sentence) (c : Cell) :
    (s.mark_safe c).cells ⊆ s.cells := by
  unfold Sentence.mark_safe
  split_ifs
  · exact Finset.erase_subset _ _
  · exact subset_rfl

lemma md_mark_mine (ai : MinesweeperAI) (c : Cell) (h : MinesDisjoint ai) :
    MinesDisjoint (ai.mark_mine c) := by
  intro t ht x hx
  rw [MinesweeperAI.mark_mine_knowledge] at ht
  rcases List.mem_map.1 ht with ⟨s, hs, rfl⟩
  rw [MinesweeperAI.mark_mine_mines, Finset.mem_insert]
  rintro (rfl | hmem)
  · exact Sentence.not_mem_mark_mine s x hx
  · exact h s hs x (Sentence.mark_mine_cells_subset s c hx) hmem

lemma md_mark_safe (ai : MinesweeperAI) (c : Cell) (h : MinesDisjoint ai) :
    MinesDisjoint (ai.mark_safe c) := by
  intro t ht x hx
  rw [MinesweeperAI.mark_safe_knowledge] at ht
  rcases List.mem_map.1 ht with ⟨s, hs, rfl⟩
  exact h s hs x (Sentence.mark_safe_cells_subset s c hx)

lemma md_markAllMines (ai : MinesweeperAI) (C : Finset Cell)
    (h : MinesDisjoint ai) : MinesDisjoint (markAllMines ai C) :=
  multisetFoldl_preserves MinesDisjoint _
    (fun b a hb => md_mark_mine b a hb) C.val ai h

lemma md_markAllSafes (ai : MinesweeperAI) (C : Finset Cell)
    (h : MinesDisjoint ai) : MinesDisjoint (markAllSafes ai C) :=
  multisetFoldl_preserves MinesDisjoint _
    (fun b a hb => md_mark_safe b a hb) C.val ai h

lemma md_extractMines (ai : MinesweeperAI) (s : Sentence)
    (h : MinesDisjoint ai) : MinesDisjoint (extractMines ai s) := by
  unfold extractMines
  split
  · exact md_markAllMines _ _ h
  · exact h

lemma md_extractSafes (ai : MinesweeperAI) (k : ℕ)
    (h : MinesDisjoint ai) : MinesDisjoint (extractSafes ai k) := by
  unfold extractSafes
  split
  · exact h
  · split
    · exact md_markAllSafes _ _ h
    · exact h

lemma md_extractStep (ai : MinesweeperAI) (k : ℕ)
    (h : MinesDisjoint ai) : MinesDisjoint (extractStep ai k) := by
  unfold extractStep
  split
  · exact h
  · exact md_extractSafes _ _ (md_extractMines _ _ h)

lemma md_extractPass (ai : MinesweeperAI)
    (h : MinesDisjoint ai) : MinesDisjoint (extractPass ai) :=
  listFoldl_preserves MinesDisjoint extractStep
    (fun b k hb => md_extractStep b k hb) _ ai h

lemma deriveStep_mines (i : Sentence) (acc : MinesweeperAI) (j : Sentence) :
    (deriveStep i acc j).mines = acc.mines := by
  unfold deriveStep
  split_ifs <;> rfl

lemma md_deriveFrom (i : Sentence) (ai : MinesweeperAI)
    (hi : ∀ c ∈ i.cells, c ∉ ai.mines) (h : MinesDisjoint ai) :
    MinesDisjoint (deriveFrom i ai) ∧ (deriveFrom i ai).mines = ai.mines := by
  unfold deriveFrom
  refine listFoldl_preserves
    (fun b => MinesDisjoint b ∧ b.mines = ai.mines)
    (deriveStep i) ?_ ai.knowledge ai ⟨h, rfl⟩
  intro b j hb
  refine ⟨?_, by rw [deriveStep_mines]; exact hb.2⟩
  unfold deriveStep
  split_ifs with h1 h2
  · exact hb.1
  · intro t ht x hx
    rcases List.mem_append.1 ht with ht | ht
    · exact hb.1 t ht x hx
    · rw [List.mem_singleton] at ht
      subst ht
      have hxi : x ∈ i.cells := (Finset.mem_sdiff.1 hx).1
      show x ∉ b.mines
      rw [hb.2]
      exact hi x hxi
  · exact hb.1

lemma md_subsetPass (ai : MinesweeperAI) (h : MinesDisjoint ai) :
    MinesDisjoint (subsetPass ai) := by
  unfold subsetPass
  have := listFoldl_preserves_mem
    (fun b => MinesDisjoint b ∧ b.mines = ai.mines)
    (fun i => ∀ c ∈ i.cells, c ∉ ai.mines)
    (fun acc i => deriveFrom i acc) ?_ ai.knowledge ?_ ai ⟨h, rfl⟩
  · exact this.1
  · intro b i hQ hb
    have hi : ∀ c ∈ i.cells, c ∉ b.mines := by
      intro c hc
      rw [hb.2]
      exact hQ c hc
    have := md_deriveFrom i b hi hb.1
    exact ⟨this.1, by rw [this.2, hb.2]⟩
  · intro i hi c hc
    exact h i hi c hc

lemma md_dedup (ai : MinesweeperAI) (h : MinesDisjoint ai) :
    MinesDisjoint (dedupKnowledge ai) := by
  intro s hs
  exact h s (List.mem_dedup.1 hs)

lemma neighbors_cells_not_mine (ai : MinesweeperAI) (cell : Cell) (count : ℤ) :
    ∀ x ∈ (ai.neighbors cell count).cells, x ∉ ai.mines := by
  intro x hx
  rw [neighbors_cells_spec] at hx
  exact (Finset.mem_filter.1 hx).2.1

lemma md_add_knowledge (ai : MinesweeperAI) (cell : Cell) (count : ℤ)
    (h : MinesDisjoint ai) : MinesDisjoint (ai.add_knowledge cell count) := by
  unfold MinesweeperAI.add_knowledge
  apply md_dedup
  apply md_subsetPass
  apply md_extractPass
  set ai1 : MinesweeperAI := { ai with moves_made := insert cell ai.moves_made }
  have h1 : MinesDisjoint ai1 := h
  by_cases hsafe : cell ∈ ai1.safes
  · rw [if_pos hsafe]
    intro t ht x hx
    rcases List.mem_append.1 ht with ht | ht
    · exact h1 t ht x hx
    · rw [List.mem_singleton] at ht
      subst ht
      exact neighbors_cells_not_mine ai1 cell count x hx
  · rw [if_neg hsafe]
    have h2 : MinesDisjoint (ai1.mark_safe cell) := md_mark_safe ai1 cell h1
    intro t ht x hx
    rcases List.mem_append.1 ht with ht | ht
    · exact h2 t ht x hx
    · rw [List.mem_singleton] at ht
      subst ht
      exact neighbors_cells_not_mine (ai1.mark_safe cell) cell count x hx

end MinesDisjointInvariant

/-- C1 (amended): after any sequence of `add_knowledge` calls starting from
a fresh engine, every retained sentence's cell-set is disjoint from the
`mines` set. Disjointness from `safes` does not hold (see the
counterexample): a cell that is safe but not yet played is re-admitted into
new sentences by the neighbor construction. -/
theorem claim1_amended_mines_disjoint (h w : ℤ) (obs : List (Cell × ℤ))
    (s : Sentence) (hs : s ∈ ((MinesweeperAI.init h w).run obs).knowledge)
    (c : Cell) (hc : c ∈ s.cells) :
    c ∉ ((MinesweeperAI.init h w).run obs).mines := by
  have hmd : MinesDisjoint ((MinesweeperAI.init h w).run obs) := by
    unfold MinesweeperAI.run
    refine listFoldl_preserves MinesDisjoint _
      (fun b o hb => md_add_knowledge b o.1 o.2 hb) obs _ ?_
    intro t ht
    simp [MinesweeperAI.init] at ht
  exact hmd s hs c hc

/-- Witness for C1 (amended): in a concrete two-observation run, the cell
(1,1) of the retained sentence is not in `mines`. -/
theorem claim1_witness :
    (Sentence.mk {((1:ℤ),(1:ℤ)), ((1:ℤ),(2:ℤ)), ((2:ℤ),(1:ℤ))} 1 ∈
      ((MinesweeperAI.init 3 3).run
        [(((0:ℤ),(0:ℤ)), 0), (((2:ℤ),(2:ℤ)), 1)]).knowledge) ∧
    ((1:ℤ),(1:ℤ)) ∈
      (Sentence.mk {((1:ℤ),(1:ℤ)), ((1:ℤ),(2:ℤ)), ((2:ℤ),(1:ℤ))} 1).cells ∧
    ((1:ℤ),(1:ℤ)) ∉
      ((MinesweeperAI.init 3 3).run
        [(((0:ℤ),(0:ℤ)), 0), (((2:ℤ),(2:ℤ)), 1)]).mines :=
  ⟨by decide, by decide,
   claim1_amended_mines_disjoint 3 3 [(((0:ℤ),(0:ℤ)), 0), (((2:ℤ),(2:ℤ)), 1)]
     (Sentence.mk {((1:ℤ),(1:ℤ)), ((1:ℤ),(2:ℤ)), ((2:ℤ),(1:ℤ))} 1)
     (by decide) ((1:ℤ),(1:ℤ)) (by decide)⟩

section SoundInvariant

lemma isTrue_mark_mine (M : Finset Cell) (s : Sentence) (c : Cell)
    (ht : IsTrue M s) (hc : c ∈ M) : IsTrue M (s.mark_mine c) := by
  unfold Sentence.mark_mine
  split_ifs with hmem
  · have hcm : c ∈ s.cells ∩ M := Finset.mem_inter.2 ⟨hmem, hc⟩
    have hset : (s.cells.erase c) ∩ M = (s.cells ∩ M).erase c := by
      ext x
      simp only [Finset.mem_inter, Finset.mem_erase]
      tauto
    have hpos : 1 ≤ (s.cells ∩ M).card := Finset.card_pos.2 ⟨c, hcm⟩
    unfold IsTrue at ht ⊢
    simp only [hset, Finset.card_erase_of_mem hcm]
    omega
  · exact ht

lemma isTrue_mark_safe (M : Finset Cell) (s : Sentence) (c : Cell)
    (ht : IsTrue M s) (hc : c ∉ M) : IsTrue M (s.mark_safe c) := by
  unfold Sentence.mark_safe
  split_ifs with hmem
  · have hset : (s.cells.erase c) ∩ M = s.cells ∩ M := by
      ext x
      simp only [Finset.mem_inter, Finset.mem_erase]
      constructor
      · tauto
      · rintro ⟨hx, hxM⟩
        exact ⟨⟨fun hxc => hc (hxc ▸ hxM), hx⟩, hxM⟩
    unfold IsTrue at ht ⊢
    simp only [hset]
    exact ht
  · exact ht

lemma sound_mark_mine (M : Finset Cell) (ai : MinesweeperAI) (c : Cell)
    (hs : Sound M ai) (hc : c ∈ M) : Sound M (ai.mark_mine c) := by
  refine ⟨?_, hs.2.1, ?_⟩
  · rw [MinesweeperAI.mark_mine_mines]
    exact Finset.insert_subset hc hs.1
  · intro t ht
    rw [MinesweeperAI.mark_mine_knowledge] at ht
    rcases List.mem_map.1 ht with ⟨s, hsk, rfl⟩
    exact isTrue_mark_mine M s c (hs.2.2 s hsk) hc

lemma sound_mark_safe (M : Finset Cell) (ai : MinesweeperAI) (c : Cell)
    (hs : Sound M ai) (hc : c ∉ M) : Sound M (ai.mark_safe c) := by
  refine ⟨hs.1, ?_, ?_⟩
  · intro x hx
    rw [MinesweeperAI.mark_safe_safes, Finset.mem_insert] at hx
    rcases hx with rfl | hx
    · exact hc
    · exact hs.2.1 x hx
  · intro t ht
    rw [MinesweeperAI.mark_safe_knowledge] at ht
    rcases List.mem_map.1 ht with ⟨s, hsk, rfl⟩
    exact isTrue_mark_safe M s c (hs.2.2 s hsk) hc

lemma sound_markAllMines (M : Finset Cell) (ai : MinesweeperAI)
    (C : Finset Cell) (hs : Sound M ai) (hC : C ⊆ M) :
    Sound M (markAllMines ai C) :=
  multisetFoldl_preserves_mem (Sound M) (fun c => c ∈ M) _
    (fun b a ha hb => sound_mark_mine M b a hb ha) C.val
    (fun _ ha => hC ha) ai hs

lemma sound_markAllSafes (M : Finset Cell) (ai : MinesweeperAI)
    (C : Finset Cell) (hs : Sound M ai) (hC : ∀ c ∈ C, c ∉ M) :
    Sound M (markAllSafes ai C) :=
  multisetFoldl_preserves_mem (Sound M) (fun c => c ∉ M) _
    (fun b a ha hb => sound_mark_safe M b a hb ha) C.val
    (fun a ha => hC a ha) ai hs

lemma known_mines_sound (M : Finset Cell) (s : Sentence) (C : Finset Cell)
    (ht : IsTrue M s) (hk : s.known_mines = some C) : C ⊆ M := by
  unfold Sentence.known_mines at hk
  split_ifs at hk with hcond
  rw [Option.some.injEq] at hk
  subst hk
  unfold IsTrue at ht
  have hcard : s.cells.card = (s.cells ∩ M).card := by omega
  have hinter : s.cells ∩ M = s.cells :=
    Finset.eq_of_subset_of_card_le Finset.inter_subset_left
      (le_of_eq hcard)
  exact Finset.inter_eq_left.1 hinter

lemma known_safes_sound (M : Finset Cell) (s : Sentence) (C : Finset Cell)
    (ht : IsTrue M s) (hk : s.known_safes = some C) : ∀ c ∈ C, c ∉ M := by
  unfold Sentence.known_safes at hk
  split_ifs at hk with hcond
  rw [Option.some.injEq] at hk
  subst hk
  unfold IsTrue at ht
  have hempty : s.cells ∩ M = ∅ := by
    rw [← Finset.card_eq_zero]
    omega
  intro c hc hcM
  have : c ∈ s.cells ∩ M := Finset.mem_inter.2 ⟨hc, hcM⟩
  rw [hempty] at this
  exact Finset.not_mem_empty c this

lemma sound_extractMines (M : Finset Cell) (ai : MinesweeperAI) (s : Sentence)
    (hs : Sound M ai) (ht : IsTrue M s) : Sound M (extractMines ai s) := by
  unfold extractMines
  split
  · next C hC => exact sound_markAllMines M ai C hs (known_mines_sound M s C ht hC)
  · exact hs

lemma sound_extractSafes (M : Finset Cell) (ai : MinesweeperAI) (k : ℕ)
    (hs : Sound M ai) : Sound M (extractSafes ai k) := by
  unfold extractSafes
  split
  · exact hs
  · next s1 hget =>
    split
    · next C hC =>
      have hmem : s1 ∈ ai.knowledge := List.get?_mem hget
      exact sound_markAllSafes M ai C hs
        (known_safes_sound M s1 C (hs.2.2 s1 hmem) hC)
    · exact hs

lemma sound_extractStep (M : Finset Cell) (ai : MinesweeperAI) (k : ℕ)
    (hs : Sound M ai) : Sound M (extractStep ai k) := by
  unfold extractStep
  split
  · exact hs
  · next s hget =>
    have hmem : s ∈ ai.knowledge := List.get?_mem hget
    exact sound_extractSafes M _ k
      (sound_extractMines M ai s hs (hs.2.2 s hmem))

lemma sound_extractPass (M : Finset Cell) (ai : MinesweeperAI)
    (hs : Sound M ai) : Sound M (extractPass ai) :=
  listFoldl_preserves (Sound M) extractStep
    (fun b k hb => sound_extractStep M b k hb) _ ai hs

end SoundInvariant

section SoundDerivation

lemma isTrue_derived (M : Finset Cell) (i j : Sentence)
    (hi : IsTrue M i) (hj : IsTrue M j) (hsub : j.cells ⊆ i.cells) :
    IsTrue M (Sentence.mk (i.cells \ j.cells) (i.count - j.count)) := by
  unfold IsTrue at hi hj ⊢
  have hset : (i.cells \ j.cells) ∩ M = (i.cells ∩ M) \ (j.cells ∩ M) := by
    ext x
    simp only [Finset.mem_inter, Finset.mem_sdiff]
    constructor
    · rintro ⟨⟨hxi, hxj⟩, hxM⟩
      exact ⟨⟨hxi, hxM⟩, fun hx => hxj hx.1⟩
    · rintro ⟨⟨hxi, hxM⟩, hxj⟩
      exact ⟨⟨hxi, fun hx => hxj ⟨hx, hxM⟩⟩, hxM⟩
  have hsub2 : j.cells ∩ M ⊆ i.cells ∩ M :=
    Finset.inter_subset_inter hsub subset_rfl
  have hcard : ((i.cells ∩ M) \ (j.cells ∩ M)).card =
      (i.cells ∩ M).card - (j.cells ∩ M).card :=
    Finset.card_sdiff hsub2
  have hle : (j.cells ∩ M).card ≤ (i.cells ∩ M).card :=
    Finset.card_le_card hsub2
  simp only [hset, hcard]
  omega

lemma sound_deriveStep (M : Finset Cell) (i : Sentence) (b : MinesweeperAI)
    (j : Sentence) (hb : Sound M b) (hi : IsTrue M i) (hj : IsTrue M j) :
    Sound M (deriveStep i b j) := by
  unfold deriveStep
  split_ifs with h1 h2
  · exact hb
  · refine ⟨hb.1, hb.2.1, ?_⟩
    intro t ht
    rcases List.mem_append.1 ht with ht | ht
    · exact hb.2.2 t ht
    · rw [List.mem_singleton] at ht
      subst ht
      exact isTrue_derived M i j hi hj h2
  · exact hb

lemma sound_deriveFrom (M : Finset Cell) (i : Sentence) (ai : MinesweeperAI)
    (hs : Sound M ai) (hi : IsTrue M i) : Sound M (deriveFrom i ai) := by
  unfold deriveFrom
  exact listFoldl_preserves_mem (Sound M) (IsTrue M) (deriveStep i)
    (fun b j hj hb => sound_deriveStep M i b j hb hi hj)
    ai.knowledge (hs.2.2) ai hs

lemma sound_subsetPass (M : Finset Cell) (ai : MinesweeperAI)
    (hs : Sound M ai) : Sound M (subsetPass ai) := by
  unfold subsetPass
  exact listFoldl_preserves_mem (Sound M) (IsTrue M)
    (fun acc i => deriveFrom i acc)
    (fun b i hi hb => sound_deriveFrom M i b hb hi)
    ai.knowledge (hs.2.2) ai hs

lemma sound_dedup (M : Finset Cell) (ai : MinesweeperAI)
    (hs : Sound M ai) : Sound M (dedupKnowledge ai) :=
  ⟨hs.1, hs.2.1, fun s hsk => hs.2.2 s (List.mem_dedup.1 hsk)⟩

lemma isTrue_neighbors (M : Finset Cell) (ai : MinesweeperAI) (cell : Cell)
    (count : ℤ) (hs : Sound M ai)
    (hcount : count =
      ((boardNeighbors ai.height ai.width cell ∩ M).card : ℤ)) :
    IsTrue M (ai.neighbors cell count) := by
  unfold IsTrue
  rw [neighbors_count_spec, neighbors_cells_spec, hcount]
  set B := boardNeighbors ai.height ai.width cell with hB
  have hmines : B.filter (fun p => p ∈ ai.mines) = (B ∩ M) ∩ ai.mines := by
    ext x
    simp only [Finset.mem_filter, Finset.mem_inter]
    constructor
    · rintro ⟨hxB, hxm⟩
      exact ⟨⟨hxB, hs.1 hxm⟩, hxm⟩
    · rintro ⟨⟨hxB, _⟩, hxm⟩
      exact ⟨hxB, hxm⟩
  have hcells : (B.filter
      (fun p => p ∉ ai.mines ∧ (p ∉ ai.safes ∨ p ∉ ai.moves_made))) ∩ M =
      (B ∩ M) \ ai.mines := by
    ext x
    simp only [Finset.mem_filter, Finset.mem_inter, Finset.mem_sdiff]
    constructor
    · rintro ⟨⟨hxB, hxm, _⟩, hxM⟩
      exact ⟨⟨hxB, hxM⟩, hxm⟩
    · rintro ⟨⟨hxB, hxM⟩, hxm⟩
      exact ⟨⟨hxB, hxm, Or.inl (fun hxs => hs.2.1 x hxs hxM)⟩, hxM⟩
  rw [hmines, hcells]
  have := Finset.card_sdiff_add_card_inter (B ∩ M) ai.mines
  omega

end SoundDerivation

section DimsPreservation

lemma dims_markAllMines (h w : ℤ) (ai : MinesweeperAI) (C : Finset Cell)
    (hd : SameDims h w ai) : SameDims h w (markAllMines ai C) :=
  multisetFoldl_preserves (SameDims h w) _
    (fun b a hb => by
      simpa only [SameDims, MinesweeperAI.mark_mine_height,
        MinesweeperAI.mark_mine_width] using hb) C.val ai hd

lemma dims_markAllSafes (h w : ℤ) (ai : MinesweeperAI) (C : Finset Cell)
    (hd : SameDims h w ai) : SameDims h w (markAllSafes ai C) :=
  multisetFoldl_preserves (SameDims h w) _
    (fun b a hb => by
      simpa only [SameDims, MinesweeperAI.mark_safe_height,
        MinesweeperAI.mark_safe_width] using hb) C.val ai hd

lemma dims_extractMines (h w : ℤ) (ai : MinesweeperAI) (s : Sentence)
    (hd : SameDims h w ai) : SameDims h w (extractMines ai s) := by
  unfold extractMines
  split
  · exact dims_markAllMines h w ai _ hd
  · exact hd

lemma dims_extractSafes (h w : ℤ) (ai : MinesweeperAI) (k : ℕ)
    (hd : SameDims h w ai) : SameDims h w (extractSafes ai k) := by
  unfold extractSafes
  split
  · exact hd
  · split
    · exact dims_markAllSafes h w ai _ hd
    · exact hd

lemma dims_extractStep (h w : ℤ) (ai : MinesweeperAI) (k : ℕ)
    (hd : SameDims h w ai) : SameDims h w (extractStep ai k) := by
  unfold extractStep
  split
  · exact hd
  · exact dims_extractSafes h w _ k (dims_extractMines h w ai _ hd)

lemma dims_extractPass (h w : ℤ) (ai : MinesweeperAI)
    (hd : SameDims h w ai) : SameDims h w (extractPass ai) :=
  listFoldl_preserves (SameDims h w) extractStep
    (fun b k hb => dims_extractStep h w b k hb) _ ai hd

lemma dims_deriveStep (h w : ℤ) (i : Sentence) (b : MinesweeperAI)
    (j : Sentence) (hd : SameDims h w b) : SameDims h w (deriveStep i b j) := by
  unfold deriveStep
  split_ifs <;> exact hd

lemma dims_subsetPass (h w : ℤ) (ai : MinesweeperAI)
    (hd : SameDims h w ai) : SameDims h w (subsetPass ai) := by
  unfold subsetPass
  refine listFoldl_preserves (SameDims h w) _ ?_ ai.knowledge ai hd
  intro b i hb
  unfold deriveFrom
  exact listFoldl_preserves (SameDims h w) _
    (fun b2 j hb2 => dims_deriveStep h w i b2 j hb2) _ b hb

lemma dims_add_knowledge (h w : ℤ) (ai : MinesweeperAI) (cell : Cell)
    (count : ℤ) (hd : SameDims h w ai) :
    SameDims h w (ai.add_knowledge cell count) := by
  unfold MinesweeperAI.add_knowledge
  refine dims_subsetPass h w _ (dims_extractPass h w _ ?_)
  refine ⟨?_, ?_⟩
  · split_ifs <;> exact hd.1
  · split_ifs <;> exact hd.2

end DimsPreservation

section SoundRun

lemma sound_add_knowledge (M : Finset Cell) (ai : MinesweeperAI)
    (cell : Cell) (count : ℤ) (hs : Sound M ai) (hcell : cell ∉ M)
    (hcount : count =
      ((boardNeighbors ai.height ai.width cell ∩ M).card : ℤ)) :
    Sound M (ai.add_knowledge cell count) := by
  unfold MinesweeperAI.add_knowledge
  apply sound_dedup
  apply sound_subsetPass
  apply sound_extractPass
  set ai1 : MinesweeperAI :=
    { ai with moves_made := insert cell ai.moves_made } with hai1
  have h1 : Sound M ai1 := ⟨hs.1, hs.2.1, hs.2.2⟩
  by_cases hsafe : cell ∈ ai1.safes
  · rw [if_pos hsafe]
    refine ⟨h1.1, h1.2.1, ?_⟩
    intro t ht
    rcases List.mem_append.1 ht with ht | ht
    · exact h1.2.2 t ht
    · rw [List.mem_singleton] at ht
      subst ht
      exact isTrue_neighbors M ai1 cell count h1 hcount
  · rw [if_neg hsafe]
    have h2 : Sound M (ai1.mark_safe cell) := sound_mark_safe M ai1 cell h1 hcell
    refine ⟨h2.1, h2.2.1, ?_⟩
    intro t ht
    rcases List.mem_append.1 ht with ht | ht
    · exact h2.2.2 t ht
    · rw [List.mem_singleton] at ht
      subst ht
      exact isTrue_neighbors M (ai1.mark_safe cell) cell count h2 hcount

lemma sound_run (h w : ℤ) (M : Finset Cell) (obs : List (Cell × ℤ))
    (hobs : ∀ o ∈ obs, TruthfulObs h w M o) (ai : MinesweeperAI)
    (hai : Sound M ai) (hd : SameDims h w ai) :
    Sound M (ai.run obs) ∧ SameDims h w (ai.run obs) := by
  unfold MinesweeperAI.run
  refine listFoldl_preserves_mem
    (fun b => Sound M b ∧ SameDims h w b) (TruthfulObs h w M) _
    ?_ obs hobs ai ⟨hai, hd⟩
  intro b o ho hb
  refine ⟨?_, dims_add_knowledge h w b o.1 o.2 hb.2⟩
  apply sound_add_knowledge M b o.1 o.2 hb.1 ho.1
  rw [hb.2.1, hb.2.2]
  exact ho.2

end SoundRun

lemma sound_init (h w : ℤ) (M : Finset Cell) :
    Sound M (MinesweeperAI.init h w) :=
  ⟨Finset.empty_subset M,
   fun c hc => absurd hc (Finset.not_mem_empty c),
   fun s hs => absurd hs (List.not_mem_nil s)⟩

/-- C3 (amended): for observation sequences that are truthful with respect
to some actual mine set `M` (the observed cell is not a mine and the count
is the exact number of neighboring mines, as the oracle contract demands),
every retained sentence satisfies `0 <= count <= |cells|`. Without the
truthfulness restriction the bound fails (see the counterexample). -/
theorem claim3_amended_truthful_bounds (h w : ℤ) (M : Finset Cell)
    (obs : List (Cell × ℤ)) (hobs : ∀ o ∈ obs, TruthfulObs h w M o)
    (s : Sentence) (hs : s ∈ ((MinesweeperAI.init h w).run obs).knowledge) :
    0 ≤ s.count ∧ s.count ≤ (s.cells.card : ℤ) := by
  have hsound : Sound M ((MinesweeperAI.init h w).run obs) :=
    (sound_run h w M obs hobs (MinesweeperAI.init h w)
      (sound_init h w M) ⟨rfl, rfl⟩).1
  have ht := hsound.2.2 s hs
  unfold IsTrue at ht
  have hle : (s.cells ∩ M).card ≤ s.cells.card :=
    Finset.card_le_card Finset.inter_subset_left
  omega

/-- Witness for C3 (amended): one truthful observation on a 2 by 2 board
with the single mine (1,1); the retained sentence has count 1 within
bounds 0..3. -/
theorem claim3_witness :
    (∀ o ∈ [(((0:ℤ),(0:ℤ)), (1:ℤ))], TruthfulObs 2 2 {((1:ℤ),(1:ℤ))} o) ∧
    (Sentence.mk {((0:ℤ),(1:ℤ)), ((1:ℤ),(0:ℤ)), ((1:ℤ),(1:ℤ))} 1 ∈
      ((MinesweeperAI.init 2 2).run [(((0:ℤ),(0:ℤ)), (1:ℤ))]).knowledge) ∧
    (0 ≤ (Sentence.mk {((0:ℤ),(1:ℤ)), ((1:ℤ),(0:ℤ)), ((1:ℤ),(1:ℤ))} 1).count ∧
     (Sentence.mk {((0:ℤ),(1:ℤ)), ((1:ℤ),(0:ℤ)), ((1:ℤ),(1:ℤ))} 1).count ≤
       ((Sentence.mk {((0:ℤ),(1:ℤ)), ((1:ℤ),(0:ℤ)),
          ((1:ℤ),(1:ℤ))} 1).cells.card : ℤ)) :=
  ⟨by decide, by decide,
   claim3_amended_truthful_bounds 2 2 {((1:ℤ),(1:ℤ))}
     [(((0:ℤ),(0:ℤ)), (1:ℤ))] (by decide)
     (Sentence.mk {((0:ℤ),(1:ℤ)), ((1:ℤ),(0:ℤ)), ((1:ℤ),(1:ℤ))} 1)
     (by decide)⟩

lemma sound_applyOp (h w : ℤ) (M : Finset Cell) (b : MinesweeperAI)
    (op : EngineOp) (hop : ConsistentOp h w M op)
    (hb : Sound M b ∧ SameDims h w b) :
    Sound M (applyOp b op) ∧ SameDims h w (applyOp b op) := by
  cases op with
  | markMineOp c =>
    exact ⟨sound_mark_mine M b c hb.1 hop, ⟨hb.2.1, hb.2.2⟩⟩
  | markSafeOp c =>
    exact ⟨sound_mark_safe M b c hb.1 hop, ⟨hb.2.1, hb.2.2⟩⟩
  | observeOp c n =>
    refine ⟨?_, dims_add_knowledge h w b c n hb.2⟩
    apply sound_add_knowledge M b c n hb.1 hop.1
    rw [hb.2.1, hb.2.2]
    exact hop.2

/-- C4 (amended): for operation sequences consistent with a fixed actual
mine set `M` (each markMine applied to a real mine, each markSafe to a real
non-mine, each observation truthful), `mines` and `safes` stay disjoint
after every sequence of operations; the two move-suggestion operations read
but never write the state. Unconditional marking makes the claim fail for
inconsistent sequences (see the counterexample). -/
theorem claim4_amended_consistent_disjoint (h w : ℤ) (M : Finset Cell)
    (ops : List EngineOp) (hops : ∀ op ∈ ops, ConsistentOp h w M op) :
    (applyOps (MinesweeperAI.init h w) ops).mines ∩
      (applyOps (MinesweeperAI.init h w) ops).safes = ∅ := by
  have hsound : Sound M (applyOps (MinesweeperAI.init h w) ops) := by
    unfold applyOps
    exact (listFoldl_preserves_mem
      (fun b => Sound M b ∧ SameDims h w b) (ConsistentOp h w M) applyOp
      (fun b op hop hb => sound_applyOp h w M b op hop hb)
      ops hops _ ⟨sound_init h w M, ⟨rfl, rfl⟩⟩).1
  rw [Finset.eq_empty_iff_forall_not_mem]
  intro x hx
  rw [Finset.mem_inter] at hx
  exact hsound.2.1 x hx.2 (hsound.1 hx.1)

/-- Witness for C4 (amended): marking the actual mine (1,1) and then
truthfully observing (0,0) keeps mines and safes disjoint. -/
theorem claim4_witness :
    (∀ op ∈ [EngineOp.markMineOp ((1:ℤ),(1:ℤ)),
             EngineOp.observeOp ((0:ℤ),(0:ℤ)) 1],
      ConsistentOp 2 2 {((1:ℤ),(1:ℤ))} op) ∧
    (applyOps (MinesweeperAI.init 2 2)
      [EngineOp.markMineOp ((1:ℤ),(1:ℤ)),
       EngineOp.observeOp ((0:ℤ),(0:ℤ)) 1]).mines ∩
    (applyOps (MinesweeperAI.init 2 2)
      [EngineOp.markMineOp ((1:ℤ),(1:ℤ)),
       EngineOp.observeOp ((0:ℤ),(0:ℤ)) 1]).safes = ∅ :=
  ⟨by decide,
   claim4_amended_consistent_disjoint 2 2 {((1:ℤ),(1:ℤ))}
     [EngineOp.markMineOp ((1:ℤ),(1:ℤ)),
      EngineOp.observeOp ((0:ℤ),(0:ℤ)) 1] (by decide)⟩
